import Mathlib

/-!
Verification of the text-to-numeric normalization layer and the sort
contract of the athlete-performance dashboard (`src/app.py`).

The embedding works over `List Char` (Python `str` values are modelled as
their character sequences) and exact rationals (`ℚ`).  Modelling
conventions, stated once here:

* Python float arithmetic is modelled with exact rationals plus explicit
  `inf` / `-inf` / `nan` values (`PyFloat`); IEEE-754 rounding of finite
  values is not modelled.
* `int(...)` / `float(...)` string conversion is modelled for ASCII input:
  optional surrounding ASCII whitespace, an optional sign, decimal digits
  with single underscore separators between digits, a fraction part, an
  exponent part, and the case-insensitive special spellings `inf`,
  `infinity` and `nan`.  Non-ASCII decimal digits and non-ASCII whitespace
  (which CPython also accepts) are outside the model.
* `str.strip` / `str.split` are modelled with the ASCII whitespace set.
-/

attribute [local semireducible] Rat.add Rat.mul Rat.inv Rat.ofScientific

/-- The apostrophe character `'` (usable as a minute/second separator). -/
def aposChar : Char := Char.ofNat 39

/-- The double-quote character, which `time_to_seconds` rewrites to `'`. -/
def quoteChar : Char := Char.ofNat 34

/-- ASCII decimal digit test (`0`-`9`), as used by `int()`/`float()` and
by the regular-expression class `\d` on ASCII text. -/
def pyIsDigit (c : Char) : Bool := 48 ≤ c.toNat && c.toNat ≤ 57

/-- ASCII whitespace test: exactly the characters `\t\n\v\f\r` and space,
the ASCII part of the set `str.strip()` / `str.split()` remove. -/
def pyIsSpace (c : Char) : Bool := c.toNat = 32 || (9 ≤ c.toNat && c.toNat ≤ 13)

/-- ASCII lower-casing of one character, as `str.lower()` does on ASCII. -/
def toLowerChar (c : Char) : Char :=
  if 65 ≤ c.toNat && c.toNat ≤ 90 then Char.ofNat (c.toNat + 32) else c

/-- Numeric value of a string of ASCII digits (most significant first). -/
def digitsVal (l : List Char) : ℕ := l.foldl (fun a c => 10 * a + (c.toNat - 48)) 0

/-- Model of `str.strip()`: drop ASCII whitespace from both ends. -/
def pyStrip (l : List Char) : List Char :=
  ((l.dropWhile pyIsSpace).reverse.dropWhile pyIsSpace).reverse

/-- Split a character list at every separator satisfying `p`, keeping empty
chunks, the way `re.split` with a single-character class does. -/
def splitOnPred (p : Char → Bool) : List Char → List (List Char)
  | [] => [[]]
  | c :: cs =>
    if p c then [] :: splitOnPred p cs
    else
      match splitOnPred p cs with
      | t :: ts => (c :: t) :: ts
      | [] => [[c]]

/-- Model of `str.split()` with no argument: split on whitespace runs and
drop the empty chunks. -/
def splitWs (l : List Char) : List (List Char) :=
  (splitOnPred pyIsSpace l).filter (fun t => t ≠ [])

/-- Checks PEP-515 underscore placement: every `_` must sit between two
ASCII digits.  `int()`/`float()` reject the string otherwise. -/
def underscoreAux : Char → List Char → Bool
  | _, [] => true
  | p, c :: cs =>
    if c = '_' then
      (pyIsDigit p && (match cs with | d :: _ => pyIsDigit d | [] => false))
        && underscoreAux c cs
    else underscoreAux c cs

/-- Underscore-placement check for a whole numeric body. -/
def underscoresOK : List Char → Bool
  | [] => true
  | c :: cs => if c = '_' then false else underscoreAux c cs

/-- A finite-or-special Python float value: exact rational, `inf`, `-inf`
or `nan`. -/
inductive PyFloat where
  | fin (q : ℚ)
  | inf
  | ninf
  | nan
deriving DecidableEq

/-- IEEE-style addition on `PyFloat` (`nan` propagates, `inf + -inf = nan`). -/
def PyFloat.add : PyFloat → PyFloat → PyFloat
  | .nan, _ => .nan
  | _, .nan => .nan
  | .inf, .ninf => .nan
  | .ninf, .inf => .nan
  | .inf, _ => .inf
  | _, .inf => .inf
  | .ninf, _ => .ninf
  | _, .ninf => .ninf
  | .fin a, .fin b => .fin (a + b)

/-- Multiplication of a `PyFloat` by a rational constant (the code only
scales by `60` and `1/100`). -/
def PyFloat.scale (c : ℚ) : PyFloat → PyFloat
  | .nan => .nan
  | .inf => if 0 < c then .inf else if c < 0 then .ninf else .nan
  | .ninf => if 0 < c then .ninf else if c < 0 then .inf else .nan
  | .fin a => .fin (c * a)

/-- Is this value the missing-data marker `nan`? -/
def PyFloat.isNan : PyFloat → Bool
  | .nan => true
  | _ => false

/-- Model of `int(s)` on ASCII text: optional surrounding whitespace, an
optional sign, then at least one digit, with underscores allowed between
digits.  Returns `none` where CPython raises `ValueError`. -/
def pyInt (cs : List Char) : Option ℤ :=
  let t := pyStrip cs
  if underscoresOK t then
    let t := t.filter (fun c => c ≠ '_')
    match t with
    | [] => none
    | c :: rest =>
      let sb : ℤ × List Char :=
        if c = '+' then (1, rest) else if c = '-' then (-1, rest) else (1, t)
      if sb.2 ≠ [] ∧ sb.2.all pyIsDigit then some (sb.1 * digitsVal sb.2) else none
  else none

/-- Mantissa of a float literal: `digits`, `digits.digits`, `digits.` or
`.digits` (at least one digit overall). -/
def parseMant (cs : List Char) : Option ℚ :=
  let ip := cs.takeWhile pyIsDigit
  let rest := cs.dropWhile pyIsDigit
  match rest with
  | [] => if ip = [] then none else some (digitsVal ip)
  | c :: fp =>
    if c = '.' ∧ fp.all pyIsDigit ∧ (ip ≠ [] ∨ fp ≠ []) then
      some ((digitsVal ip : ℚ) + digitsVal fp / 10 ^ fp.length)
    else none

/-- Exponent of a float literal: optional sign then at least one digit. -/
def parseExp (cs : List Char) : Option ℤ :=
  match cs with
  | [] => none
  | c :: rest =>
    let sb : ℤ × List Char :=
      if c = '+' then (1, rest) else if c = '-' then (-1, rest) else (1, cs)
    if sb.2 ≠ [] ∧ sb.2.all pyIsDigit then some (sb.1 * digitsVal sb.2) else none

/-- A decimal float literal body: mantissa with an optional `e`/`E`
exponent part. -/
def parseDecimal (cs : List Char) : Option ℚ :=
  let mant := cs.takeWhile (fun c => c ≠ 'e' ∧ c ≠ 'E')
  let rest := cs.dropWhile (fun c => c ≠ 'e' ∧ c ≠ 'E')
  match rest with
  | [] => parseMant mant
  | _ :: ex =>
    match parseMant mant, parseExp ex with
    | some m, some e => some (m * (10 : ℚ) ^ e)
    | _, _ => none

/-- Case-insensitive comparison of a character list against an ASCII
lower-case pattern. -/
def lowerEq (l : List Char) (pat : List Char) : Bool :=
  l.map toLowerChar = pat

/-- Model of `float(s)` on ASCII text: optional surrounding whitespace and
sign, then `inf`/`infinity`/`nan` (case-insensitive) or a decimal literal
with optional exponent, with PEP-515 underscores.  Returns `none` where
CPython raises `ValueError`. -/
def pyFloatParse (cs : List Char) : Option PyFloat :=
  let t := pyStrip cs
  if underscoresOK t then
    let t := t.filter (fun c => c ≠ '_')
    match t with
    | [] => none
    | c :: rest =>
      let sb : ℤ × List Char :=
        if c = '+' then (1, rest) else if c = '-' then (-1, rest) else (1, t)
      if lowerEq sb.2 ['i', 'n', 'f'] ∨
          lowerEq sb.2 ['i', 'n', 'f', 'i', 'n', 'i', 't', 'y'] then
        some (if sb.1 = 1 then .inf else .ninf)
      else if lowerEq sb.2 ['n', 'a', 'n'] then some .nan
      else (parseDecimal sb.2).map (fun q => .fin (sb.1 * q))
  else none

/-- Input normalization shared by `time_to_seconds`:
`str(x).strip().replace(quote, apostrophe)` (app.py line 52). -/
def cleanTime (s : String) : List Char :=
  (pyStrip s.toList).map (fun c => if c = quoteChar then aposChar else c)

/-- The body of `time_to_seconds` (app.py lines 52-62) without the
enclosing `try`/`except`: `none` models an escaping exception.

* if `'h'` occurs, split at the first `'h'`, then split the remainder at
  the first apostrophe (no apostrophe models the unpacking `ValueError`),
  and compute `int(h)*3600 + int(m)*60 + float(s with apostrophes removed)`;
* otherwise split on apostrophes (all double quotes were already replaced),
  drop empty chunks, and use the 2-token form `M*60 + S`, the 3-token form
  `M*60 + S + C/100`, or fall back to `float` of the whole cleaned string
  with apostrophes replaced by decimal points. -/
def timeAux (s : String) : Option PyFloat :=
  let clean := cleanTime s
  if 'h' ∈ clean then
    let hPre := clean.takeWhile (fun c => c ≠ 'h')
    let rest := (clean.dropWhile (fun c => c ≠ 'h')).tail
    if aposChar ∈ rest then
      let mPre := rest.takeWhile (fun c => c ≠ aposChar)
      let sPost := (rest.dropWhile (fun c => c ≠ aposChar)).tail
      match pyInt hPre, pyInt mPre, pyFloatParse (sPost.filter (fun c => c ≠ aposChar)) with
      | some h, some m, some sv => some ((PyFloat.fin ((h * 3600 + m * 60 : ℤ) : ℚ)).add sv)
      | _, _, _ => none
    else none
  else
    let parts := (splitOnPred (fun c => c = aposChar) clean).filter (fun t => t ≠ [])
    match parts with
    | [a, b] =>
      match pyFloatParse a, pyFloatParse b with
      | some x, some y => some ((x.scale 60).add y)
      | _, _ => none
    | [a, b, c] =>
      match pyFloatParse a, pyFloatParse b, pyFloatParse c with
      | some x, some y, some z => some (((x.scale 60).add y).add (z.scale (1 / 100)))
      | _, _, _ => none
    | _ => pyFloatParse (clean.map (fun c => if c = aposChar then '.' else c))

/-- `time_to_seconds` (app.py lines 50-64): the parse body wrapped in the
catch-all `except` returning the sentinel `0`. -/
def timeToSeconds (s : String) : PyFloat :=
  (timeAux s).getD (.fin 0)

/-- Backtracking step of `re.match(r'(\d+)m', tok)`: `capRev` is the
reversed current candidate for the greedy `\d+` group and `rest` the
remaining input; on failure the last captured character is given back. -/
def goBack : List Char → List Char → Option (List Char)
  | [], _ => none
  | c :: cr, rest =>
    if rest.head? = some 'm' then some ((c :: cr).reverse)
    else goBack cr (c :: rest)

/-- The fixed table of named road-race distances (app.py lines 71-76),
looked up with the full original event string; `0` when absent. -/
def roadLookup (s : String) : PyFloat :=
  if s = "5km Road" then .fin 5001
  else if s = "10km Road" then .fin 10001
  else if s = "20km Road" then .fin 20001
  else if s = "1/2 Marathon" then .fin 21097.5
  else .fin 0

/-- The body of `event_to_meters` (app.py lines 68-77) without the
enclosing `try`/`except`: `none` models the `IndexError` of
`event.split()[0]` on a string with no whitespace-delimited token.
Otherwise `re.match(r'(\d+)m', ...)` on the first token (greedy digits
then a literal `m`, not anchored at the token end) gives the meter count,
else the road-race table is consulted. -/
def eventAux (s : String) : Option PyFloat :=
  match splitWs s.toList with
  | [] => none
  | tok :: _ =>
    let run := tok.takeWhile pyIsDigit
    match goBack run.reverse (tok.dropWhile pyIsDigit) with
    | some cap => some (.fin (digitsVal cap))
    | none => some (roadLookup s)

/-- `event_to_meters` (app.py lines 66-79): the body wrapped in the
catch-all `except` returning the sentinel `0`. -/
def eventToMeters (s : String) : PyFloat :=
  (eventAux s).getD (.fin 0)

/-- A non-empty string of ASCII digits: the `<H>`/`<M>` shape of the
spec grammar (spec section 4.1, step 1). -/
def strictNat (cs : List Char) : Bool := cs ≠ [] && cs.all pyIsDigit

/-- A plain decimal literal with optional fraction, `digits` or
`digits.digits`, and its value: the seconds-with-optional-fraction shape
of the spec grammar. -/
def strictDec (cs : List Char) : Option ℚ :=
  let ip := cs.takeWhile pyIsDigit
  let rest := cs.dropWhile pyIsDigit
  if ip = [] then none
  else
    match rest with
    | [] => some (digitsVal ip)
    | c :: fp =>
      if c = '.' ∧ fp ≠ [] ∧ fp.all pyIsDigit then
        some ((digitsVal ip : ℚ) + (digitsVal fp : ℚ) / 10 ^ fp.length)
      else none

/-- The value of a time string under the spec grammar of section 4.1,
written from the spec words (not from the code): after trimming and
treating `"` as `'`,

1. hour form `<H>h<M>'<S>`: digits, a literal `h`, digits, a separator,
   then seconds with optional fraction, valued `H*3600 + M*60 + S`;
2. split on separators, drop empty tokens: two tokens `M`,`S` give
   `M*60 + S`; three tokens `M`,`S`,`C` give `M*60 + S + C/100`;
3. otherwise the whole string, separators replaced by decimal points,
   parsed as a plain decimal number of seconds.

`none` when the string is not well-formed under this grammar.
`specHourForm` is the hour-form test of step 1 and `specTimeValue` the
value function of the whole grammar. -/
def specHourForm (s : String) : Bool :=
  let clean := cleanTime s
  let hPre := clean.takeWhile (fun c => c ≠ 'h')
  let hPost := (clean.dropWhile (fun c => c ≠ 'h')).tail
  let mPre := hPost.takeWhile (fun c => c ≠ aposChar)
  let sPost := (hPost.dropWhile (fun c => c ≠ aposChar)).tail
  decide ('h' ∈ clean) && strictNat hPre && decide (aposChar ∈ hPost) && strictNat mPre
    && (strictDec sPost).isSome

def specTimeValue (s : String) : Option ℚ :=
  let clean := cleanTime s
  let hPre := clean.takeWhile (fun c => c ≠ 'h')
  let hPost := (clean.dropWhile (fun c => c ≠ 'h')).tail
  let mPre := hPost.takeWhile (fun c => c ≠ aposChar)
  let sPost := (hPost.dropWhile (fun c => c ≠ aposChar)).tail
  if specHourForm s then
    (strictDec sPost).map
      (fun sv => (digitsVal hPre : ℚ) * 3600 + (digitsVal mPre : ℚ) * 60 + sv)
  else
    let parts := (splitOnPred (fun c => c = aposChar) clean).filter (fun t => t ≠ [])
    match parts with
    | [a, b] =>
      match strictDec a, strictDec b with
      | some x, some y => some (x * 60 + y)
      | _, _ => none
    | [a, b, c] =>
      match strictDec a, strictDec b, strictDec c with
      | some x, some y, some z => some (x * 60 + y + z / 100)
      | _, _, _ => none
    | _ => strictDec (clean.map (fun c => if c = aposChar then '.' else c))

/-- The exact success condition of the hour branch of `time_to_seconds`
(app.py lines 53-56): an apostrophe occurs after the first `h`, the hour
and minute parts are accepted by `int()`, and the remainder with its
apostrophes removed is accepted by `float()`. -/
def extHourOK (s : String) : Bool :=
  let clean := cleanTime s
  let hPre := clean.takeWhile (fun c => c ≠ 'h')
  let rest := (clean.dropWhile (fun c => c ≠ 'h')).tail
  let mPre := rest.takeWhile (fun c => c ≠ aposChar)
  let sPost := (rest.dropWhile (fun c => c ≠ aposChar)).tail
  decide (aposChar ∈ rest) && (pyInt hPre).isSome && (pyInt mPre).isSome
    && (pyFloatParse (sPost.filter (fun c => c ≠ aposChar))).isSome

/-- The three-step distance policy, written from the spec words (spec
section 4.2): a leading whitespace-delimited token of shape `<digits>m`
gives the digit prefix in meters, else the full original string is looked
up in the road-race table, else `0`. -/
def specDistancePolicy (s : String) : PyFloat :=
  match splitWs s.toList with
  | tok :: _ =>
    let run := tok.takeWhile pyIsDigit
    if run ≠ [] ∧ (tok.dropWhile pyIsDigit).head? = some 'm' then .fin (digitsVal run)
    else roadLookup s
  | [] => roadLookup s

/-- A scalar cell value of a record, as produced by `json.load`: a string
or a number (numbers modelled as exact rationals; JSON null/bool payloads
and float `NaN` payloads are outside the model). -/
inductive Val where
  | vStr (s : String)
  | vNum (q : ℚ)
deriving DecidableEq

/-- A dataset record with the seven named columns of the dashboard
(app.py line 137). -/
structure Record where
  event : Val
  time : Val
  category : Val
  club : Val
  region : Val
  location : Val
  date : Val
deriving DecidableEq

/-- The seven sortable columns. -/
inductive Col where
  | event
  | time
  | category
  | club
  | region
  | location
  | date
deriving DecidableEq

/-- The raw (unprojected) value of a column in a record. -/
def colVal : Col → Record → Val
  | .event, r => r.event
  | .time, r => r.time
  | .category, r => r.category
  | .club, r => r.club
  | .region, r => r.region
  | .location, r => r.location
  | .date, r => r.date

/-- Model of `str(x)` on a cell value.  String cells are returned as-is
(the only case the theorems below exercise); the rendering of numeric
cells is a placeholder for CPython's numeric `repr`. -/
def valToStr : Val → String
  | .vStr s => s
  | .vNum q => toString q.num

/-- Is this cell a string? -/
def Val.isStr : Val → Bool
  | .vStr _ => true
  | _ => false

/-- Is this cell a number? -/
def Val.isNum : Val → Bool
  | .vNum _ => true
  | _ => false

/-- The string payload of a string cell (dummy on numbers). -/
def Val.strOf : Val → String
  | .vStr s => s
  | .vNum _ => ""

/-- The numeric payload of a numeric cell (dummy on strings). -/
def Val.numOf : Val → ℚ
  | .vNum q => q
  | .vStr _ => 0

deriving instance DecidableEq for Except

/-- A Python exception escaping a sort: comparing values of incomparable
types raises `TypeError`. -/
inductive PyErr where
  | typeError
deriving DecidableEq

/-- The sort-key order for a float column with `inf`/`-inf` at the ends:
`-inf` is bottom, `inf` is top, finite values in between.  `nan` maps to
`none`, which pandas treats as a missing value. -/
def floatKey : PyFloat → Option (WithBot (WithTop ℚ))
  | .fin q => some ((q : WithTop ℚ) : WithBot (WithTop ℚ))
  | .inf => some ((⊤ : WithTop ℚ) : WithBot (WithTop ℚ))
  | .ninf => some (⊥ : WithBot (WithTop ℚ))
  | .nan => none

/-- Comparison of key-carrying pairs by their key component. -/
def pairLe {α K : Type} [LinearOrder K] (p q : α × K) : Prop := p.2 ≤ q.2

instance {α K : Type} [LinearOrder K] : DecidableRel (pairLe (α := α) (K := K)) :=
  fun p q => (inferInstance : Decidable (p.2 ≤ q.2))

instance {α K : Type} [LinearOrder K] : IsTotal (α × K) pairLe :=
  ⟨fun p q => le_total p.2 q.2⟩

instance {α K : Type} [LinearOrder K] : IsTrans (α × K) pairLe :=
  ⟨fun _ _ _ h1 h2 => le_trans h1 h2⟩

/-- Model of a single-column pandas `sort_values(..., na_position='last')`
(pandas `nargsort`): rows with a missing key (`none`) are appended at the
end in input order regardless of direction; the remaining rows are
stable-sorted by key, for a descending sort by reversing the row list,
stable-sorting it ascending, and reversing the result.  The core
comparison sort is modelled as a stable insertion sort; numpy's default
`kind='quicksort'` coincides with it on the small inputs evaluated below
(introsort runs plain insertion sort on partitions of at most 16
elements) but is not stable in general.
`somesOf` pairs each row having a present key with that key, in input
order. -/
def somesOf {α K : Type} (key : α → Option K) (l : List α) : List (α × K) :=
  l.filterMap (fun a => (key a).map (fun k => (a, k)))

def sortOn {α K : Type} [LinearOrder K] (key : α → Option K) (asc : Bool) (l : List α) :
    List α :=
  (if asc then List.insertionSort pairLe (somesOf key l)
    else (List.insertionSort pairLe (somesOf key l).reverse).reverse).map Prod.fst
    ++ l.filter (fun a => (key a).isNone)

/-- Model of pandas `sort_values` on a raw object-dtype column: Python
compares the cell values themselves, so a column mixing strings and
numbers raises `TypeError` (every comparison chain ordering a string
against a number crosses the type boundary), while a homogeneous column
sorts by string order (code-point lexicographic, modelled on the
character lists) or numeric order.  No cell of a `Record` is
missing, so `na_position` plays no role here. -/
def exSortOn (key : Record → Val) (asc : Bool) (l : List Record) :
    Except PyErr (List Record) :=
  if (l.map key).all Val.isStr then
    .ok (sortOn (fun r => some (Val.strOf (key r)).toList) asc l)
  else if (l.map key).all Val.isNum then
    .ok (sortOn (fun r => some (Val.numOf (key r))) asc l)
  else .error .typeError

/-- Does the sort mapping of app.py lines 152-156 replace this column by
a computed projection? -/
def isMapped : Col → Bool
  | .event => true
  | .time => true
  | .date => true
  | _ => false

/-- The sorting step of `main` (app.py lines 148-161).  `dparse` is the
best-effort day-first date parser `pd.to_datetime(..., dayfirst=True,
errors='coerce')`, supplied as a parameter and returning `none` for an
unparsable date; its output values are modelled as integer timestamps.
The `try` block sorts by the mapped projection column (`_event_m`,
`_time_sec`, `_date`) or by the raw column for unmapped columns; the
`except` block first surfaces the error (`st.error`, the first component)
and then retries `sort_values` on the raw selected column, outside any
handler. -/
def mainSortStep (dparse : String → Option ℤ) (l : List Record) (c : Col) (asc : Bool) :
    Option PyErr × Except PyErr (List Record) :=
  let attempt : Except PyErr (List Record) :=
    match c with
    | .event => .ok (sortOn (fun r => floatKey (eventToMeters (valToStr r.event))) asc l)
    | .time => .ok (sortOn (fun r => floatKey (timeToSeconds (valToStr r.time))) asc l)
    | .date => .ok (sortOn (fun r => dparse (valToStr r.date)) asc l)
    | _ => exSortOn (colVal c) asc l
  match attempt with
  | .ok res => (none, .ok res)
  | .error e => (some e, exSortOn (colVal c) asc l)

/-- The comparator value of a record on a column, per the spec's
column-to-comparator mapping (spec section 4.3, step 2). -/
inductive CompV where
  | f (x : PyFloat)
  | d (x : Option ℤ)
  | v (x : Val)
deriving DecidableEq

/-- Is the comparator value missing (float `nan` or unparsable date)? -/
def CompV.isMissing : CompV → Bool
  | .f x => x.isNan
  | .d x => x.isNone
  | .v _ => false

/-- The comparator value of one record on one column. -/
def compVal (dparse : String → Option ℤ) : Col → Record → CompV
  | .event, r => .f (eventToMeters (valToStr r.event))
  | .time, r => .f (timeToSeconds (valToStr r.time))
  | .date, r => .d (dparse (valToStr r.date))
  | c, r => .v (colVal c r)

/-- The comparator values of a record list on a column. -/
def compVals (dparse : String → Option ℤ) (c : Col) (l : List Record) : List CompV :=
  l.map (compVal dparse c)

/-- The one-character string holding an apostrophe (used to write concrete
time strings without apostrophe characters in string literals). -/
def aposS : String := String.singleton aposChar

/-- The one-character string holding a double quote. -/
def quoteS : String := String.singleton quoteChar

/-- A record whose cells are all strings, with the given Event and Time. -/
def mkRec (e t : String) : Record :=
  ⟨.vStr e, .vStr t, .vStr "cat", .vStr "club", .vStr "reg", .vStr "loc", .vStr "date"⟩

/-- A record with Time `"5"` (parses to 5.0 seconds). -/
def recTime5 : Record := mkRec "400m" "5"

/-- A record with Time `"nan"` (parses to float `nan`, a missing key). -/
def recTimeNan : Record := mkRec "800m" "nan"

/-- A record whose Category cell is the number `1`. -/
def recCatNum : Record :=
  ⟨.vStr "e", .vStr "t", .vNum 1, .vStr "club", .vStr "reg", .vStr "loc", .vStr "date"⟩

/-- A record whose Category cell is the string `"a"`. -/
def recCatStr : Record :=
  ⟨.vStr "e", .vStr "t", .vStr "a", .vStr "club", .vStr "reg", .vStr "loc", .vStr "date"⟩

/-- A date parser stub that parses nothing (usable wherever the date
column is not under test). -/
def dparseNone : String → Option ℤ := fun _ => none

/-- If every element of `d` satisfies `p` and `c` does not, `takeWhile`
and `dropWhile` split `d ++ c :: r` exactly at `c`. -/
theorem takeWhile_all_append (p : Char → Bool) (d r : List Char) (c : Char)
    (hall : ∀ x ∈ d, p x = true) (hc : p c = false) :
    (d ++ c :: r).takeWhile p = d ∧ (d ++ c :: r).dropWhile p = c :: r := by
  induction d with
  | nil => simp [List.takeWhile_cons, List.dropWhile_cons, hc]
  | cons a as ih =>
    have ha : p a = true := hall a (List.mem_cons_self a as)
    have ih' := ih (fun x hx => hall x (List.mem_cons_of_mem a hx))
    simp [List.takeWhile_cons, List.dropWhile_cons, ha, ih'.1, ih'.2]

/-- Characterization of the regex backtracking of `(\d+)m`: when the
candidate group consists of digits, the match succeeds exactly when the
remaining input starts with `'m'`, and then captures the whole candidate
(giving back a digit can never expose an `'m'`). -/
theorem goBack_eq (rRev : List Char) (rest : List Char)
    (hd : ∀ c ∈ rRev, pyIsDigit c = true) :
    goBack rRev rest =
      if rRev ≠ [] ∧ rest.head? = some 'm' then some rRev.reverse else none := by
  induction rRev generalizing rest with
  | nil => simp [goBack]
  | cons c cr ih =>
    simp only [goBack]
    by_cases hm : rest.head? = some 'm'
    · simp [hm]
    · rw [if_neg hm, ih (c :: rest) (fun x hx => hd x (List.mem_cons_of_mem c hx))]
      have hcd : pyIsDigit c = true := hd c (List.mem_cons_self c cr)
      have hcm : c ≠ 'm' := by
        intro h; subst h; exact absurd hcd (by decide)
      simp [hcm, hm]

/-- The transcription of `event_to_meters` agrees with the spec's
three-step policy on every input: the `IndexError` branch coincides with
a failed table lookup, and the backtracking regex prefix match coincides
with the digit-run test. -/
theorem eventToMeters_eq_policy (s : String) : eventToMeters s = specDistancePolicy s := by
  unfold eventToMeters eventAux specDistancePolicy
  cases hsp : splitWs s.toList with
  | nil =>
    simp only [Option.getD_none]
    unfold roadLookup
    split_ifs with h1 h2 h3 h4
    · subst h1; exact absurd hsp (by decide)
    · subst h2; exact absurd hsp (by decide)
    · subst h3; exact absurd hsp (by decide)
    · subst h4; exact absurd hsp (by decide)
    · rfl
  | cons tok rest =>
    have hd : ∀ c ∈ (tok.takeWhile pyIsDigit).reverse, pyIsDigit c = true := by
      intro c hc
      exact List.mem_takeWhile_imp (List.mem_reverse.mp hc)
    simp only [goBack_eq _ _ hd, List.reverse_reverse]
    by_cases h1 : tok.takeWhile pyIsDigit = []
    · simp [h1]
    · by_cases h2 : (tok.dropWhile pyIsDigit).head? = some 'm'
      · simp [h1, h2]
      · simp [h1, h2]

/-- C6: `event_to_meters` follows the three-step policy for every input
string — a leading token of shape `<digits>m` gives the digit prefix in
meters, else the full original string is looked up in the fixed road-race
table `{5km Road ↦ 5001, 10km Road ↦ 10001, 20km Road ↦ 20001,
1/2 Marathon ↦ 21097.5}`, else `0`; in particular
`parse_distance("800m Indoor") = 800`, `parse_distance("5km Road") = 5001`
and `parse_distance("10 Miles") = 0`. -/
theorem distance_policy_correct :
    (∀ s, eventToMeters s = specDistancePolicy s) ∧
    eventToMeters "800m Indoor" = .fin 800 ∧
    eventToMeters "5km Road" = .fin 5001 ∧
    eventToMeters "10 Miles" = .fin 0 :=
  ⟨eventToMeters_eq_policy, by decide, by decide, by decide⟩

/-- C10: for every string whose first whitespace-delimited token begins
with one or more digits immediately followed by `'m'`, `event_to_meters`
returns those digits as meters regardless of what follows the `'m'`
within the token, because the prefix regex is not anchored to the end of
the token. -/
theorem digit_prefix_unanchored (s : String) (tok d r : List Char)
    (htok : (splitWs s.toList).head? = some tok)
    (hshape : tok = d ++ 'm' :: r)
    (hd : d ≠ []) (hdig : ∀ c ∈ d, pyIsDigit c = true) :
    eventToMeters s = .fin (digitsVal d) := by
  unfold eventToMeters eventAux
  cases hsp : splitWs s.toList with
  | nil => rw [hsp] at htok; exact absurd htok (by simp)
  | cons t ts =>
    rw [hsp] at htok
    simp only [List.head?_cons, Option.some.injEq] at htok
    subst htok
    have hm : pyIsDigit 'm' = false := by decide
    have htw := takeWhile_all_append pyIsDigit d r 'm' hdig hm
    subst hshape
    dsimp only
    rw [htw.1, htw.2]
    have hdrev : ∀ c ∈ d.reverse, pyIsDigit c = true := by
      intro c hc; exact hdig c (List.mem_reverse.mp hc)
    rw [goBack_eq _ _ hdrev]
    have : d.reverse ≠ [] ∧ ('m' :: r).head? = some 'm' := by
      constructor
      · simpa using hd
      · rfl
    rw [if_pos this]
    simp

/-- Witness for `digit_prefix_unanchored` at the inputs named by the
claim: `"100mH Hurdles"` yields 100 and `"800metres"` yields 800. -/
theorem digit_prefix_unanchored_witness :
    eventToMeters "100mH Hurdles" = .fin (digitsVal ['1', '0', '0']) ∧
    eventToMeters "800metres" = .fin (digitsVal ['8', '0', '0']) :=
  ⟨digit_prefix_unanchored "100mH Hurdles" ['1', '0', '0', 'm', 'H'] ['1', '0', '0'] ['H']
      (by decide) (by decide) (by decide) (by decide),
    digit_prefix_unanchored "800metres" ['8', '0', '0', 'm', 'e', 't', 'r', 'e', 's']
      ['8', '0', '0'] ['e', 't', 'r', 'e', 's'] (by decide) (by decide) (by decide) (by decide)⟩

/-- C2: both parsers are total.  In the embedding `timeToSeconds` and
`eventToMeters` are total functions into `PyFloat` by construction
(mirroring the catch-all `except:` handlers); this theorem states the
sentinel discipline: an escaping exception in the parse body (a `none`
from `timeAux`/`eventAux`) produces the sentinel `0`, and otherwise the
body's value is returned unchanged.  Non-string inputs are first
converted by `str(...)`, which never raises, so the string domain is
exhaustive. -/
theorem parsers_total_and_sentinel (s : String) :
    (timeAux s = none → timeToSeconds s = .fin 0) ∧
    (∀ v, timeAux s = some v → timeToSeconds s = v) ∧
    (eventAux s = none → eventToMeters s = .fin 0) ∧
    (∀ v, eventAux s = some v → eventToMeters s = v) := by
  refine ⟨fun h => ?_, fun v h => ?_, fun h => ?_, fun v h => ?_⟩ <;>
    simp [timeToSeconds, eventToMeters, h]

/-- Witness for `parsers_total_and_sentinel` on garbage inputs: the parse
bodies fail and the sentinel `0` is returned. -/
theorem parsers_total_and_sentinel_witness :
    timeAux "garbage" = none ∧ timeToSeconds "garbage" = .fin 0 ∧
    eventAux "" = none ∧ eventToMeters "" = .fin 0 :=
  ⟨by decide, (parsers_total_and_sentinel "garbage").1 (by decide),
    by decide, (parsers_total_and_sentinel "").2.2.1 (by decide)⟩

/-- If the string (after cleaning) contains an `'h'` but the hour branch's
parses fail, the whole parse body fails. -/
theorem timeAux_hour_none (s : String) (hh : 'h' ∈ cleanTime s)
    (hnot : extHourOK s = false) : timeAux s = none := by
  unfold timeAux
  unfold extHourOK at hnot
  dsimp only at hnot
  rw [if_pos hh]
  by_cases ha : aposChar ∈ ((cleanTime s).dropWhile (fun c => c ≠ 'h')).tail
  · rw [if_pos ha]
    dsimp only
    cases hp : pyInt ((cleanTime s).takeWhile (fun c => c ≠ 'h')) with
    | none => rfl
    | some h0 =>
      cases hm : pyInt ((((cleanTime s).dropWhile (fun c => c ≠ 'h')).tail).takeWhile
          (fun c => c ≠ aposChar)) with
      | none => rfl
      | some m0 =>
        cases hf : pyFloatParse (((((cleanTime s).dropWhile (fun c => c ≠ 'h')).tail).dropWhile
            (fun c => c ≠ aposChar)).tail.filter (fun c => c ≠ aposChar)) with
        | none => rfl
        | some v =>
          rw [hp, hm, hf] at hnot
          simp only [Option.isSome_some, Bool.and_true] at hnot
          rw [decide_eq_false_iff_not] at hnot
          exact absurd ha hnot
  · rw [if_neg ha]

/-- C3 (amended): an input containing `'h'` yields the sentinel `0.0`
exactly when the code's hour branch fails — no apostrophe after the first
`'h'`, or the hour/minute parts rejected by `int()`, or the remainder
with apostrophes removed rejected by `float()` (`extHourOK`).  The
claim's original grammar is too strict: the seconds part has its
apostrophes deleted before the `float()` conversion, and `int()`/`float()`
accept signs, inner whitespace-free forms, and special spellings beyond
plain digits. -/
theorem hour_branch_sentinel (s : String) (hh : 'h' ∈ cleanTime s)
    (hnot : extHourOK s = false) : timeToSeconds s = .fin 0 := by
  unfold timeToSeconds
  rw [timeAux_hour_none s hh hnot]
  rfl

/-- Witness for `hour_branch_sentinel`: `"2h3"` contains an `'h'`, fails
the hour branch (no apostrophe after the `'h'`), and parses to `0`. -/
theorem hour_branch_sentinel_witness :
    'h' ∈ cleanTime "2h3" ∧ extHourOK "2h3" = false ∧ timeToSeconds "2h3" = .fin 0 :=
  ⟨by decide, by decide, hour_branch_sentinel "2h3" (by decide) (by decide)⟩

/-- Counterexample to C3 as stated: `"2h3'4'5"` contains `'h'` and does
not have the claim's hour form (the extra apostrophe spoils the seconds
part, `specHourForm` is false), yet `time_to_seconds` returns `7425.0`,
not the sentinel `0.0`, because the code removes apostrophes from the
seconds part before converting it (`float("45") = 45.0`). -/
theorem hour_extra_apos_counterexample :
    'h' ∈ cleanTime ("2h3" ++ aposS ++ "4" ++ aposS ++ "5") ∧
    specHourForm ("2h3" ++ aposS ++ "4" ++ aposS ++ "5") = false ∧
    specTimeValue ("2h3" ++ aposS ++ "4" ++ aposS ++ "5") = none ∧
    timeToSeconds ("2h3" ++ aposS ++ "4" ++ aposS ++ "5") = .fin 7425 ∧
    PyFloat.fin 7425 ≠ PyFloat.fin 0 := by
  refine ⟨by decide, by decide, by decide, by decide, by decide⟩

/-- `event_to_meters` never produces the missing-data value `nan`: every
branch returns a finite rational. -/
theorem event_never_nan (s : String) : (eventToMeters s).isNan = false := by
  unfold eventToMeters eventAux
  cases hsp : splitWs s.toList with
  | nil => rfl
  | cons tok rest =>
    dsimp only
    cases hg : goBack (tok.takeWhile pyIsDigit).reverse (tok.dropWhile pyIsDigit) with
    | some cap => rfl
    | none =>
      simp only [Option.getD_some]
      unfold roadLookup
      split_ifs <;> rfl

/-- C4 (amended): a missing comparator key is impossible for the Event
projection — `event_to_meters` never returns `nan` — but not for the Time
projection: `time_to_seconds("nan")` is float `nan`, whose sort key is
missing, so missing keys are possible for the Time and Date projections. -/
theorem missing_key_characterization :
    (∀ s, (eventToMeters s).isNan = false) ∧
    timeToSeconds "nan" = .nan ∧
    floatKey (timeToSeconds "nan") = none :=
  ⟨event_never_nan, by decide, by decide⟩

/-- Counterexample to C4 as stated: the input string `"nan"` reaches the
fallback `float()` conversion, which accepts the spelling `nan`, so
`time_to_seconds` returns float `nan` — a missing (NaN) value whose sort
key is dropped to the missing bucket, contradicting both the non-NaN
claim and the only-for-Date claim. -/
theorem time_nan_counterexample :
    timeToSeconds "nan" = .nan ∧
    PyFloat.nan.isNan = true ∧
    floatKey (timeToSeconds "nan") = none := by
  refine ⟨by decide, by decide, by decide⟩

/-- The digit range of `pyIsDigit`, in arithmetic form. -/
theorem pyIsDigit_val {c : Char} (h : pyIsDigit c = true) : 48 ≤ c.toNat ∧ c.toNat ≤ 57 := by
  simpa [pyIsDigit] using h

theorem digit_not_space {c : Char} (h : pyIsDigit c = true) : pyIsSpace c = false := by
  obtain ⟨h1, h2⟩ := pyIsDigit_val h
  simp [pyIsSpace]
  omega

theorem digit_or_dot_not_space {c : Char} (h : pyIsDigit c = true ∨ c = '.') :
    pyIsSpace c = false := by
  rcases h with h | h
  · exact digit_not_space h
  · subst h; decide

theorem toLower_noop {c : Char} (h : pyIsDigit c = true ∨ c = '.') : toLowerChar c = c := by
  rcases h with h | h
  · obtain ⟨h1, h2⟩ := pyIsDigit_val h
    unfold toLowerChar
    rw [if_neg]
    simp only [Bool.and_eq_true, decide_eq_true_eq, not_and]
    omega
  · subst h; decide

theorem dropWhile_noop {p : Char → Bool} {l : List Char} (h : ∀ c ∈ l, p c = false) :
    l.dropWhile p = l := by
  cases l with
  | nil => rfl
  | cons a t => simp [List.dropWhile_cons, h a (List.mem_cons_self a t)]

theorem takeWhile_all {p : Char → Bool} {l : List Char} (h : ∀ c ∈ l, p c = true) :
    l.takeWhile p = l ∧ l.dropWhile p = [] := by
  induction l with
  | nil => exact ⟨rfl, rfl⟩
  | cons a t ih =>
    have ih' := ih (fun c hc => h c (List.mem_cons_of_mem a hc))
    simp [List.takeWhile_cons, List.dropWhile_cons, h a (List.mem_cons_self a t), ih'.1, ih'.2]

theorem strip_noop {l : List Char} (h : ∀ c ∈ l, pyIsSpace c = false) : pyStrip l = l := by
  unfold pyStrip
  rw [dropWhile_noop h]
  rw [dropWhile_noop (fun c hc => h c (List.mem_reverse.mp hc))]
  exact List.reverse_reverse l

theorem underscoreAux_noop {l : List Char} (p : Char) (h : '_' ∉ l) :
    underscoreAux p l = true := by
  induction l generalizing p with
  | nil => rfl
  | cons a t ih =>
    unfold underscoreAux
    have ha : a ≠ '_' := fun hh => h (hh ▸ List.mem_cons_self a t)
    rw [if_neg ha]
    exact ih a (fun hm => h (List.mem_cons_of_mem a hm))

theorem underscores_noop {l : List Char} (h : '_' ∉ l) :
    underscoresOK l = true ∧ l.filter (fun c => c ≠ '_') = l := by
  constructor
  · cases l with
    | nil => rfl
    | cons a t =>
      have ha : a ≠ '_' := fun hh => h (hh ▸ List.mem_cons_self a t)
      show (if a = '_' then false else underscoreAux a t) = true
      rw [if_neg ha]
      exact underscoreAux_noop a (fun hm => h (List.mem_cons_of_mem a hm))
  · rw [List.filter_eq_self]
    intro a ha
    simp only [ne_eq, decide_eq_true_eq]
    exact fun hh => h (hh ▸ ha)

theorem strictNat_parts {cs : List Char} (h : strictNat cs = true) :
    cs ≠ [] ∧ ∀ c ∈ cs, pyIsDigit c = true := by
  unfold strictNat at h
  simp only [Bool.and_eq_true, ne_eq, decide_eq_true_eq, List.all_eq_true] at h
  exact h

theorem strictNat_pyInt {cs : List Char} (h : strictNat cs = true) :
    pyInt cs = some ((digitsVal cs : ℤ)) := by
  obtain ⟨hne, hd⟩ := strictNat_parts h
  unfold pyInt
  rw [strip_noop (fun c hc => digit_not_space (hd c hc))]
  have hus : '_' ∉ cs := fun hm => absurd (hd '_' hm) (by decide)
  rw [if_pos (underscores_noop hus).1, (underscores_noop hus).2]
  cases cs with
  | nil => exact absurd rfl hne
  | cons c rest =>
    have hcd : pyIsDigit c = true := hd c (List.mem_cons_self c rest)
    obtain ⟨hlo, hhi⟩ := pyIsDigit_val hcd
    have hp : c ≠ '+' := by intro hh; subst hh; exact absurd hlo (by decide)
    have hm : c ≠ '-' := by intro hh; subst hh; exact absurd hlo (by decide)
    dsimp only
    rw [if_neg hp, if_neg hm]
    dsimp only
    rw [if_pos ⟨List.cons_ne_nil c rest, List.all_eq_true.mpr hd⟩]
    simp

theorem strictDec_chars {cs : List Char} {q : ℚ} (h : strictDec cs = some q) :
    ∀ c ∈ cs, pyIsDigit c = true ∨ c = '.' := by
  unfold strictDec at h
  by_cases hip : cs.takeWhile pyIsDigit = []
  · rw [if_pos hip] at h; cases h
  · rw [if_neg hip] at h
    intro c hc
    rw [← List.takeWhile_append_dropWhile (p := pyIsDigit) (l := cs)] at hc
    rcases List.mem_append.mp hc with h1 | h2
    · exact Or.inl (List.mem_takeWhile_imp h1)
    · cases hrest : cs.dropWhile pyIsDigit with
      | nil => rw [hrest] at h2; cases h2
      | cons d fp =>
        rw [hrest] at h h2
        dsimp only at h
        by_cases hcond : d = '.' ∧ fp ≠ [] ∧ fp.all pyIsDigit
        · rcases List.mem_cons.mp h2 with rfl | hmem
          · exact Or.inr hcond.1
          · exact Or.inl (List.all_eq_true.mp hcond.2.2 c hmem)
        · rw [if_neg hcond] at h; cases h

theorem lowerEq_digits_false {cs : List Char} (p1 : Char) (pat : List Char)
    (hd : ∀ c ∈ cs, pyIsDigit c = true ∨ c = '.')
    (hp1 : pyIsDigit p1 = false ∧ p1 ≠ '.') :
    lowerEq cs (p1 :: pat) = false := by
  unfold lowerEq
  cases cs with
  | nil => simp
  | cons c rest =>
    simp only [List.map_cons, decide_eq_false_iff_not, ne_eq]
    intro hh
    have h1 : toLowerChar c = p1 := (List.cons.injEq _ _ _ _ ▸ hh).1
    have hcd := hd c (List.mem_cons_self c rest)
    rw [toLower_noop hcd] at h1
    subst h1
    rcases hcd with hcd | hcd
    · exact absurd hcd (by simp [hp1.1])
    · exact hp1.2 hcd

theorem parseMant_of_strictDec {cs : List Char} {q : ℚ} (h : strictDec cs = some q) :
    parseMant cs = some q := by
  unfold strictDec at h
  unfold parseMant
  by_cases hip : cs.takeWhile pyIsDigit = []
  · rw [if_pos hip] at h; cases h
  · rw [if_neg hip] at h
    cases hrest : cs.dropWhile pyIsDigit with
    | nil =>
      rw [hrest] at h
      dsimp only at h ⊢
      rw [if_neg hip]
      exact h
    | cons d fp =>
      rw [hrest] at h
      dsimp only at h ⊢
      by_cases hcond : d = '.' ∧ fp ≠ [] ∧ fp.all pyIsDigit
      · rw [if_pos hcond] at h
        rw [if_pos ⟨hcond.1, hcond.2.2, Or.inr hcond.2.1⟩]
        exact h
      · rw [if_neg hcond] at h; cases h

theorem strictDec_pyFloatParse {cs : List Char} {q : ℚ} (h : strictDec cs = some q) :
    pyFloatParse cs = some (.fin q) := by
  have hch := strictDec_chars h
  have hus : '_' ∉ cs := fun hm => by
    rcases hch '_' hm with hd | hd
    · exact absurd hd (by decide)
    · exact absurd hd (by decide)
  unfold pyFloatParse
  rw [strip_noop (fun c hc => digit_or_dot_not_space (hch c hc))]
  rw [if_pos (underscores_noop hus).1, (underscores_noop hus).2]
  have hip : cs.takeWhile pyIsDigit ≠ [] := by
    intro hipEq
    unfold strictDec at h
    rw [if_pos hipEq] at h
    cases h
  cases hcs : cs with
  | nil => rw [hcs] at hip; simp at hip
  | cons c rest =>
    subst hcs
    have hcd : pyIsDigit c = true := by
      cases hpc : pyIsDigit c with
      | true => rfl
      | false =>
        exfalso
        apply hip
        simp [List.takeWhile_cons, hpc]
    obtain ⟨hlo, hhi⟩ := pyIsDigit_val hcd
    have hplus : c ≠ '+' := fun hh => by subst hh; exact absurd hlo (by decide)
    have hminus : c ≠ '-' := fun hh => by subst hh; exact absurd hlo (by decide)
    dsimp only
    rw [if_neg hplus, if_neg hminus]
    dsimp only
    have hinf1 := lowerEq_digits_false 'i' ['n', 'f'] hch (by decide)
    have hinf2 := lowerEq_digits_false 'i'
      ['n', 'f', 'i', 'n', 'i', 't', 'y'] hch (by decide)
    have hnan := lowerEq_digits_false 'n' ['a', 'n'] hch (by decide)
    rw [if_neg (by simp [hinf1, hinf2])]
    rw [if_neg (by simp [hnan])]
    have heE : ∀ x ∈ c :: rest, (fun ch => decide (ch ≠ 'e' ∧ ch ≠ 'E')) x = true := by
      intro x hx
      simp only [decide_eq_true_eq, ne_eq]
      rcases hch x hx with hd | hd
      · obtain ⟨l1, l2⟩ := pyIsDigit_val hd
        constructor
        · intro hh; subst hh; exact absurd l2 (by decide)
        · intro hh; subst hh; exact absurd l2 (by decide)
      · subst hd
        exact ⟨by decide, by decide⟩
    unfold parseDecimal
    rw [(takeWhile_all heE).1, (takeWhile_all heE).2]
    dsimp only
    rw [parseMant_of_strictDec h]
    simp

theorem splitOnPred_mem {p : Char → Bool} {c : Char} {l : List Char}
    (hc : c ∈ l) (hp : p c = false) : ∃ t ∈ splitOnPred p l, c ∈ t := by
  induction l with
  | nil => cases hc
  | cons a t ih =>
    unfold splitOnPred
    by_cases hpa : p a = true
    · rw [if_pos hpa]
      rcases List.mem_cons.mp hc with rfl | hmem
      · rw [hpa] at hp; cases hp
      · obtain ⟨t', ht', hct'⟩ := ih hmem
        exact ⟨t', List.mem_cons_of_mem _ ht', hct'⟩
    · rw [if_neg hpa]
      rcases List.mem_cons.mp hc with rfl | hmem
      · cases hsp : splitOnPred p t with
        | nil => exact ⟨[c], by simp, by simp⟩
        | cons t2 ts2 => exact ⟨c :: t2, by simp, by simp⟩
      · obtain ⟨t', ht', hct'⟩ := ih hmem
        cases hsp : splitOnPred p t with
        | nil => rw [hsp] at ht'; cases ht'
        | cons t2 ts2 =>
          rw [hsp] at ht'
          rcases List.mem_cons.mp ht' with rfl | hmem2
          · exact ⟨a :: t', by simp, List.mem_cons_of_mem _ hct'⟩
          · exact ⟨t', by simp [hmem2], hct'⟩

theorem h_notin_clean_of_tokens {clean : List Char}
    (hall : ∀ t ∈ (splitOnPred (fun c => c = aposChar) clean).filter (fun t => t ≠ []),
      ∀ c ∈ t, pyIsDigit c = true ∨ c = '.') : 'h' ∉ clean := by
  intro hh
  obtain ⟨t, ht, hct⟩ := splitOnPred_mem (p := fun c => decide (c = aposChar)) hh (by decide)
  have htp : t ∈ (splitOnPred (fun c => c = aposChar) clean).filter (fun t => t ≠ []) :=
    List.mem_filter.mpr ⟨ht, by simpa using List.ne_nil_of_mem hct⟩
  rcases hall t htp 'h' hct with hd | hd
  · exact absurd hd (by decide)
  · exact absurd hd (by decide)

theorem h_notin_clean_of_mapped {clean : List Char} {q : ℚ}
    (h : strictDec (clean.map (fun c => if c = aposChar then '.' else c)) = some q) :
    'h' ∉ clean := by
  intro hh
  have hm : 'h' ∈ clean.map (fun c => if c = aposChar then '.' else c) :=
    List.mem_map.mpr ⟨'h', hh, by decide⟩
  rcases strictDec_chars h 'h' hm with hd | hd
  · exact absurd hd (by decide)
  · exact absurd hd (by decide)

theorem specTimeValue_refines_hour (s : String) (v : ℚ)
    (hform : specHourForm s = true)
    (h : specTimeValue s = some v) : timeToSeconds s = .fin v := by
  unfold specTimeValue at h
  rw [if_pos hform] at h
  unfold specHourForm at hform
  simp only [Bool.and_eq_true, decide_eq_true_eq] at hform
  obtain ⟨⟨⟨⟨hh, hH⟩, hapos⟩, hM⟩, hS⟩ := hform
  cases hsd : strictDec ((((cleanTime s).dropWhile (fun c => c ≠ 'h')).tail.dropWhile
      (fun c => c ≠ aposChar)).tail) with
  | none => rw [hsd] at h; cases h
  | some sv =>
    rw [hsd] at h
    simp only [Option.map_some', Option.some.injEq] at h
    unfold timeToSeconds timeAux
    rw [if_pos hh, if_pos hapos]
    dsimp only
    rw [strictNat_pyInt hH, strictNat_pyInt hM]
    have hnoapos : aposChar ∉ ((((cleanTime s).dropWhile (fun c => c ≠ 'h')).tail.dropWhile
        (fun c => c ≠ aposChar)).tail) := by
      intro hm
      rcases strictDec_chars hsd aposChar hm with hd | hd
      · exact absurd hd (by decide)
      · exact absurd hd (by decide)
    have hfilter : (((((cleanTime s).dropWhile (fun c => c ≠ 'h')).tail.dropWhile
        (fun c => c ≠ aposChar)).tail).filter (fun c => c ≠ aposChar)) =
        ((((cleanTime s).dropWhile (fun c => c ≠ 'h')).tail.dropWhile
        (fun c => c ≠ aposChar)).tail) := by
      rw [List.filter_eq_self]
      intro a ha
      simp only [ne_eq, decide_eq_true_eq]
      exact fun hq => hnoapos (hq ▸ ha)
    rw [hfilter, strictDec_pyFloatParse hsd]
    dsimp only
    simp only [Option.getD_some, PyFloat.add]
    rw [← h]
    congr 1
    push_cast
    ring

theorem specTimeValue_refines_else (s : String) (v : ℚ)
    (hform : specHourForm s = false)
    (h : specTimeValue s = some v) : timeToSeconds s = .fin v := by
  unfold specTimeValue at h
  rw [if_neg (by simp [hform])] at h
  dsimp only at h
  cases hp1 : (splitOnPred (fun c => c = aposChar) (cleanTime s)).filter (fun t => t ≠ []) with
  | nil =>
    rw [hp1] at h
    dsimp only at h
    have hnh : 'h' ∉ cleanTime s := h_notin_clean_of_mapped h
    unfold timeToSeconds timeAux
    rw [if_neg hnh]
    dsimp only
    rw [hp1]
    dsimp only
    rw [strictDec_pyFloatParse h]
    rfl
  | cons a tl =>
    cases hp2 : tl with
    | nil =>
      rw [hp1, hp2] at h
      dsimp only at h
      have hnh : 'h' ∉ cleanTime s := h_notin_clean_of_mapped h
      unfold timeToSeconds timeAux
      rw [if_neg hnh]
      dsimp only
      rw [hp1, hp2]
      dsimp only
      rw [strictDec_pyFloatParse h]
      rfl
    | cons b tl2 =>
      cases hp3 : tl2 with
      | nil =>
        rw [hp1, hp2, hp3] at h
        dsimp only at h
        cases hda : strictDec a with
        | none => rw [hda] at h; dsimp only at h; cases h
        | some x =>
          cases hdb : strictDec b with
          | none => rw [hda, hdb] at h; dsimp only at h; cases h
          | some y =>
            rw [hda, hdb] at h
            dsimp only at h
            simp only [Option.some.injEq] at h
            have hnh : 'h' ∉ cleanTime s := by
              apply h_notin_clean_of_tokens
              rw [hp1, hp2, hp3]
              intro t ht c hc
              rcases List.mem_cons.mp ht with rfl | ht2
              · exact strictDec_chars hda c hc
              · rcases List.mem_cons.mp ht2 with rfl | ht3
                · exact strictDec_chars hdb c hc
                · cases ht3
            unfold timeToSeconds timeAux
            rw [if_neg hnh]
            dsimp only
            rw [hp1, hp2, hp3]
            dsimp only
            rw [strictDec_pyFloatParse hda, strictDec_pyFloatParse hdb]
            simp only [PyFloat.scale, PyFloat.add, Option.getD_some]
            rw [← h]
            congr 1
            ring
      | cons c3 tl3 =>
        cases hp4 : tl3 with
        | nil =>
          rw [hp1, hp2, hp3, hp4] at h
          dsimp only at h
          cases hda : strictDec a with
          | none => rw [hda] at h; dsimp only at h; cases h
          | some x =>
            cases hdb : strictDec b with
            | none => rw [hda, hdb] at h; dsimp only at h; cases h
            | some y =>
              cases hdc : strictDec c3 with
              | none => rw [hda, hdb, hdc] at h; dsimp only at h; cases h
              | some z =>
                rw [hda, hdb, hdc] at h
                dsimp only at h
                simp only [Option.some.injEq] at h
                have hnh : 'h' ∉ cleanTime s := by
                  apply h_notin_clean_of_tokens
                  rw [hp1, hp2, hp3, hp4]
                  intro t ht c hc
                  rcases List.mem_cons.mp ht with rfl | ht2
                  · exact strictDec_chars hda c hc
                  · rcases List.mem_cons.mp ht2 with rfl | ht3
                    · exact strictDec_chars hdb c hc
                    · rcases List.mem_cons.mp ht3 with rfl | ht4
                      · exact strictDec_chars hdc c hc
                      · cases ht4
                unfold timeToSeconds timeAux
                rw [if_neg hnh]
                dsimp only
                rw [hp1, hp2, hp3, hp4]
                dsimp only
                rw [strictDec_pyFloatParse hda, strictDec_pyFloatParse hdb,
                  strictDec_pyFloatParse hdc]
                simp only [PyFloat.scale, PyFloat.add, Option.getD_some]
                rw [← h]
                congr 1
                ring
        | cons d tl4 =>
          rw [hp1, hp2, hp3, hp4] at h
          dsimp only at h
          have hnh : 'h' ∉ cleanTime s := h_notin_clean_of_mapped h
          unfold timeToSeconds timeAux
          rw [if_neg hnh]
          dsimp only
          rw [hp1, hp2, hp3, hp4]
          dsimp only
          rw [strictDec_pyFloatParse h]
          rfl

theorem specTimeValue_refines (s : String) (v : ℚ) (h : specTimeValue s = some v) :
    timeToSeconds s = .fin v := by
  cases hform : specHourForm s with
  | true => exact specTimeValue_refines_hour s v hform h
  | false => exact specTimeValue_refines_else s v hform h

/-- C5: on well-formed inputs (the spec grammar `specTimeValue` succeeds),
`time_to_seconds` returns the grammar's value, treating `"` as `'`; in
particular the hour form gives `H*3600 + M*60 + S`, two tokens give
`M*60 + S`, three tokens give `M*60 + S + C/100`, and otherwise the whole
string parses as plain seconds; concretely `parse_time("2h03'45.67") =
7425.67`, `parse_time("3'45\"67") = 225.67`, `parse_time("45.30") =
45.30`. -/
theorem time_grammar_refinement :
    (∀ s v, specTimeValue s = some v → timeToSeconds s = .fin v) ∧
    timeToSeconds ("2h03" ++ aposS ++ "45.67") = .fin 7425.67 ∧
    timeToSeconds ("3" ++ aposS ++ "45" ++ quoteS ++ "67") = .fin 225.67 ∧
    timeToSeconds "45.30" = .fin 45.30 :=
  ⟨specTimeValue_refines, by decide, by decide, by decide⟩

/-- Witness for `time_grammar_refinement`: the grammar succeeds on the
claim's hour-form example and the refinement reproduces its value. -/
theorem time_grammar_refinement_witness :
    specTimeValue ("2h03" ++ aposS ++ "45.67") = some 7425.67 ∧
    timeToSeconds ("2h03" ++ aposS ++ "45.67") = .fin 7425.67 :=
  ⟨by decide, time_grammar_refinement.1 _ _ (by decide)⟩

theorem sortOn_split {α K : Type} [LinearOrder K] (key : α → Option K) (asc : Bool)
    (l : List α) :
    ∃ l₁ l₂, sortOn key asc l = l₁ ++ l₂ ∧ (∀ a ∈ l₁, (key a).isSome = true) ∧
      (∀ a ∈ l₂, (key a).isNone = true) := by
  refine ⟨_, _, rfl, ?_, ?_⟩
  · intro a ha
    rw [List.mem_map] at ha
    obtain ⟨p, hp, hfst⟩ := ha
    have hps : p ∈ somesOf key l := by
      cases asc with
      | true =>
        rw [if_pos rfl] at hp
        exact (List.perm_insertionSort pairLe _).subset hp
      | false =>
        rw [if_neg (by simp)] at hp
        rw [List.mem_reverse] at hp
        have := (List.perm_insertionSort pairLe _).subset hp
        rwa [List.mem_reverse] at this
    obtain ⟨a', ha', heq⟩ := List.mem_filterMap.mp hps
    cases hk : key a' with
    | none => rw [hk] at heq; cases heq
    | some k =>
      rw [hk] at heq
      simp only [Option.map_some', Option.some.injEq] at heq
      rw [← hfst, ← heq]
      simp [hk]
  · intro a ha
    exact (List.mem_filter.mp ha).2

/-- C7: in a Date sort (either direction, no fallback firing), the output
splits into the records whose Date parses followed by the records whose
Date does not: unparsable dates always sort last (`na_position='last'`). -/
theorem date_unparsable_sort_last (dparse : String → Option ℤ) (l : List Record) (asc : Bool) :
    ∃ l₁ l₂, mainSortStep dparse l .date asc = (none, .ok (l₁ ++ l₂)) ∧
      (∀ r ∈ l₁, (dparse (valToStr r.date)).isSome = true) ∧
      (∀ r ∈ l₂, (dparse (valToStr r.date)).isNone = true) := by
  obtain ⟨l₁, l₂, heq, h1, h2⟩ := sortOn_split (fun r => dparse (valToStr r.date)) asc l
  refine ⟨l₁, l₂, ?_, h1, h2⟩
  unfold mainSortStep
  dsimp only
  rw [heq]

theorem sorted_perm_nodup_eq {α K : Type} [LinearOrder K] :
    ∀ {l₁ l₂ : List (α × K)}, l₁.Perm l₂ → l₁.Sorted pairLe → l₂.Sorted pairLe →
      (l₁.map Prod.snd).Nodup → l₁ = l₂ := by
  intro l₁
  induction l₁ with
  | nil =>
    intro l₂ hp _ _ _
    exact hp.nil_eq
  | cons a t ih =>
    intro l₂ hp hs₁ hs₂ hnd
    cases l₂ with
    | nil => exact absurd hp.symm.nil_eq (by simp)
    | cons b t₂ =>
      have hab : a = b := by
        have hain : a ∈ b :: t₂ := hp.subset (List.mem_cons_self a t)
        have hbin : b ∈ a :: t := hp.symm.subset (List.mem_cons_self b t₂)
        rcases List.mem_cons.mp hain with h1 | h1
        · exact h1
        rcases List.mem_cons.mp hbin with h2 | h2
        · exact h2.symm
        have hle1 : a.2 ≤ b.2 := List.rel_of_sorted_cons hs₁ b h2
        have hle2 : b.2 ≤ a.2 := List.rel_of_sorted_cons hs₂ a h1
        exfalso
        have hmem : a.2 ∈ t.map Prod.snd :=
          List.mem_map.mpr ⟨b, h2, (le_antisymm hle1 hle2).symm⟩
        rw [List.map_cons, List.nodup_cons] at hnd
        exact hnd.1 hmem
      subst hab
      have hp' : t.Perm t₂ := hp.cons_inv
      rw [ih hp' hs₁.of_cons hs₂.of_cons
        (by rw [List.map_cons, List.nodup_cons] at hnd; exact hnd.2)]

theorem somes_snd {α K : Type} (key : α → Option K) (l : List α) :
    (somesOf key l).map Prod.snd = l.filterMap key := by
  unfold somesOf
  induction l with
  | nil => rfl
  | cons a t ih =>
    cases hk : key a <;> simp [List.filterMap_cons, hk, ih]

theorem somes_fst {α K : Type} (key : α → Option K) (l : List α)
    (hsome : ∀ a ∈ l, (key a).isSome = true) :
    (somesOf key l).map Prod.fst = l := by
  unfold somesOf
  induction l with
  | nil => rfl
  | cons a t ih =>
    have ha := hsome a (List.mem_cons_self a t)
    cases hk : key a with
    | none => rw [hk] at ha; simp at ha
    | some k =>
      simp only [List.filterMap_cons, hk, Option.map_some', List.map_cons]
      rw [ih (fun x hx => hsome x (List.mem_cons_of_mem a hx))]

theorem sortOn_rev {α K : Type} [LinearOrder K] (key : α → Option K) (l : List α)
    (hsome : ∀ a ∈ l, (key a).isSome = true)
    (hnd : (l.filterMap key).Nodup) :
    sortOn key false l = (sortOn key true l).reverse := by
  unfold sortOn
  have hnone : l.filter (fun a => (key a).isNone) = [] := by
    rw [List.filter_eq_nil_iff]
    intro a ha
    have h2 := hsome a ha
    cases hk : key a with
    | none => rw [hk] at h2; simp at h2
    | some k => simp [hk]
  have hISrev : List.insertionSort pairLe ((somesOf key l).reverse) =
      List.insertionSort pairLe (somesOf key l) := by
    apply sorted_perm_nodup_eq
    · exact (List.perm_insertionSort _ _).trans
        ((List.reverse_perm _).trans (List.perm_insertionSort _ _).symm)
    · exact List.sorted_insertionSort _ _
    · exact List.sorted_insertionSort _ _
    · have hperm : List.Perm
          ((List.insertionSort pairLe ((somesOf key l).reverse)).map Prod.snd)
          ((somesOf key l).map Prod.snd) :=
        ((List.perm_insertionSort _ _).trans (List.reverse_perm _)).map Prod.snd
      rw [somes_snd] at hperm
      exact hperm.nodup_iff.mpr hnd
  rw [hnone, hISrev, if_pos rfl, if_neg (by simp), List.append_nil, List.append_nil,
    List.map_reverse]

theorem filterMap_some_eq_map {α γ : Type} (g : α → γ) (l : List α) :
    l.filterMap (fun a => some (g a)) = l.map g := by
  induction l with
  | nil => rfl
  | cons a t ih => simp [List.filterMap_cons, ih]

theorem map_nodup_transport {α β γ : Type} {l : List α} {f : α → β} (g : β → γ)
    (hnd : (l.map f).Nodup)
    (hinj : ∀ x ∈ l, ∀ y ∈ l, g (f x) = g (f y) → f x = f y) :
    (l.map (fun a => g (f a))).Nodup := by
  induction l with
  | nil => simp
  | cons a t ih =>
    rw [List.map_cons, List.nodup_cons] at hnd
    rw [List.map_cons, List.nodup_cons]
    refine ⟨?_, ih hnd.2
      (fun x hx y hy => hinj x (List.mem_cons_of_mem _ hx) y (List.mem_cons_of_mem _ hy))⟩
    intro hc
    obtain ⟨b, hb, hgb⟩ := List.mem_map.mp hc
    have hfb := hinj b (List.mem_cons_of_mem _ hb) a (List.mem_cons_self _ _) hgb
    exact hnd.1 (List.mem_map.mpr ⟨b, hb, hfb⟩)

theorem filterMap_nodup_transport {α β γ : Type} {l : List α} {f : α → β} (g : β → Option γ)
    (hnd : (l.map f).Nodup)
    (hinj : ∀ x y, g x ≠ none → g x = g y → x = y) :
    (l.filterMap (fun a => g (f a))).Nodup := by
  induction l with
  | nil => simp
  | cons a t ih =>
    rw [List.map_cons, List.nodup_cons] at hnd
    rw [List.filterMap_cons]
    cases hga : g (f a) with
    | none => exact ih hnd.2
    | some c =>
      rw [List.nodup_cons]
      refine ⟨?_, ih hnd.2⟩
      intro hc
      obtain ⟨b, hb, hgb⟩ := List.mem_filterMap.mp hc
      have hfb : f b = f a := by
        apply hinj
        · rw [hgb]; exact Option.some_ne_none c
        · rw [hgb, hga]
      exact hnd.1 (List.mem_map.mpr ⟨b, hb, hfb⟩)

theorem floatKey_isSome {x : PyFloat} (h : x.isNan = false) : (floatKey x).isSome = true := by
  cases x <;> simp [floatKey, PyFloat.isNan] at h ⊢

theorem floatKey_inj {x y : PyFloat} (hx : floatKey x ≠ none) (hxy : floatKey x = floatKey y) :
    x = y := by
  cases x <;> cases y <;> simp [floatKey] at hx hxy ⊢
  · exact hxy

theorem strOf_toList_inj {v w : Val} (hv : v.isStr = true) (hw : w.isStr = true)
    (h : v.strOf.toList = w.strOf.toList) : v = w := by
  cases v with
  | vNum q => simp [Val.isStr] at hv
  | vStr s =>
    cases w with
    | vNum q => simp [Val.isStr] at hw
    | vStr t =>
      cases s
      cases t
      simp only [Val.strOf, String.toList] at h
      simp [h]

theorem numOf_inj {v w : Val} (hv : v.isNum = true) (hw : w.isNum = true)
    (h : v.numOf = w.numOf) : v = w := by
  cases v with
  | vStr s => simp [Val.isNum] at hv
  | vNum q =>
    cases w with
    | vStr t => simp [Val.isNum] at hw
    | vNum p => simp [Val.numOf] at h; simp [h]

theorem exSortOn_rev (key : Record → Val) (l : List Record)
    (hnd : (l.map key).Nodup) :
    ∀ res, exSortOn key true l = .ok res → exSortOn key false l = .ok res.reverse := by
  intro res hok
  unfold exSortOn at hok ⊢
  by_cases hstr : (l.map key).all Val.isStr = true
  · rw [if_pos hstr] at hok ⊢
    injection hok with hok
    rw [← hok]
    congr 1
    apply sortOn_rev
    · intro a _; rfl
    · rw [filterMap_some_eq_map]
      apply map_nodup_transport (g := fun v => v.strOf.toList) hnd
      intro x hx y hy hxy
      have hxs : (key x).isStr = true :=
        List.all_eq_true.mp hstr _ (List.mem_map.mpr ⟨x, hx, rfl⟩)
      have hys : (key y).isStr = true :=
        List.all_eq_true.mp hstr _ (List.mem_map.mpr ⟨y, hy, rfl⟩)
      exact strOf_toList_inj hxs hys hxy
  · rw [if_neg hstr] at hok ⊢
    by_cases hnum : (l.map key).all Val.isNum = true
    · rw [if_pos hnum] at hok ⊢
      injection hok with hok
      rw [← hok]
      congr 1
      apply sortOn_rev
      · intro a _; rfl
      · rw [filterMap_some_eq_map]
        apply map_nodup_transport (g := Val.numOf) hnd
        intro x hx y hy hxy
        have hxs : (key x).isNum = true :=
          List.all_eq_true.mp hnum _ (List.mem_map.mpr ⟨x, hx, rfl⟩)
        have hys : (key y).isNum = true :=
          List.all_eq_true.mp hnum _ (List.mem_map.mpr ⟨y, hy, rfl⟩)
        exact numOf_inj hxs hys hxy
    · rw [if_neg hnum] at hok
      cases hok

theorem sortOn_float_rev (f : Record → PyFloat) (l : List Record)
    (hnd : (l.map (fun r => CompV.f (f r))).Nodup)
    (hnm : ∀ r ∈ l, (f r).isNan = false) :
    sortOn (fun r => floatKey (f r)) false l =
      (sortOn (fun r => floatKey (f r)) true l).reverse := by
  apply sortOn_rev
  · intro a ha
    exact floatKey_isSome (hnm a ha)
  · have hnd2 : (l.map f).Nodup := by
      have heq : l.map (fun r => CompV.f (f r)) = (l.map f).map CompV.f := by
        rw [List.map_map]; rfl
      rw [heq] at hnd
      exact hnd.of_map
    exact filterMap_nodup_transport floatKey hnd2 (fun x y hx hxy => floatKey_inj hx hxy)

theorem sortOn_date_rev (key : Record → Option ℤ) (l : List Record)
    (hnd : (l.map (fun r => CompV.d (key r))).Nodup)
    (hnm : ∀ r ∈ l, (key r).isNone = false) :
    sortOn key false l = (sortOn key true l).reverse := by
  apply sortOn_rev
  · intro a ha
    cases hk : key a with
    | none =>
      have := hnm a ha
      rw [hk] at this
      simp at this
    | some k => rfl
  · have hnd2 : (l.map key).Nodup := by
      have heq : l.map (fun r => CompV.d (key r)) = (l.map key).map CompV.d := by
        rw [List.map_map]; rfl
      rw [heq] at hnd
      exact hnd.of_map
    exact filterMap_nodup_transport (fun x => x) hnd2 (fun x y _ h => h)

/-- C8 (amended): for every record list and column, if no two records have
equal comparator values on that column and no comparator value is missing
(no `nan` time key, no unparsable date), then whenever the ascending sort
succeeds with output `res`, the descending sort succeeds with output
exactly `res.reverse`.  (The original claim fails when a comparator value
is missing: `na_position='last'` pins missing keys to the end in both
directions.) -/
theorem toggle_reverse_no_ties (dparse : String → Option ℤ) (l : List Record) (c : Col)
    (hnd : (compVals dparse c l).Nodup)
    (hnm : ∀ v ∈ compVals dparse c l, v.isMissing = false) :
    ∀ res, (mainSortStep dparse l c true).2 = .ok res →
      (mainSortStep dparse l c false).2 = .ok res.reverse := by
  intro res hok
  cases c with
  | event =>
    unfold mainSortStep at hok ⊢
    dsimp only at hok ⊢
    injection hok with hok
    rw [← hok]
    congr 1
    apply sortOn_float_rev _ _ hnd
    intro r hr
    exact hnm _ (List.mem_map.mpr ⟨r, hr, rfl⟩)
  | time =>
    unfold mainSortStep at hok ⊢
    dsimp only at hok ⊢
    injection hok with hok
    rw [← hok]
    congr 1
    apply sortOn_float_rev _ _ hnd
    intro r hr
    exact hnm _ (List.mem_map.mpr ⟨r, hr, rfl⟩)
  | date =>
    unfold mainSortStep at hok ⊢
    dsimp only at hok ⊢
    injection hok with hok
    rw [← hok]
    congr 1
    apply sortOn_date_rev _ _ hnd
    intro r hr
    have := hnm _ (List.mem_map.mpr ⟨r, hr, rfl⟩)
    simpa [compVal, CompV.isMissing] using this
  | category =>
    unfold mainSortStep at hok ⊢
    dsimp only at hok ⊢
    have hnd2 : (l.map (colVal .category)).Nodup := by
      have heq : compVals dparse .category l = (l.map (colVal .category)).map CompV.v := by
        unfold compVals
        rw [List.map_map]; rfl
      rw [heq] at hnd
      exact hnd.of_map
    cases hatt : exSortOn (colVal .category) true l with
    | ok r0 =>
      rw [hatt] at hok
      dsimp only at hok
      injection hok with hok
      rw [exSortOn_rev _ _ hnd2 r0 hatt]
      dsimp only
      rw [hok]
    | error e =>
      rw [hatt] at hok
      dsimp only at hok
      cases hok
  | club =>
    unfold mainSortStep at hok ⊢
    dsimp only at hok ⊢
    have hnd2 : (l.map (colVal .club)).Nodup := by
      have heq : compVals dparse .club l = (l.map (colVal .club)).map CompV.v := by
        unfold compVals
        rw [List.map_map]; rfl
      rw [heq] at hnd
      exact hnd.of_map
    cases hatt : exSortOn (colVal .club) true l with
    | ok r0 =>
      rw [hatt] at hok
      dsimp only at hok
      injection hok with hok
      rw [exSortOn_rev _ _ hnd2 r0 hatt]
      dsimp only
      rw [hok]
    | error e =>
      rw [hatt] at hok
      dsimp only at hok
      cases hok
  | region =>
    unfold mainSortStep at hok ⊢
    dsimp only at hok ⊢
    have hnd2 : (l.map (colVal .region)).Nodup := by
      have heq : compVals dparse .region l = (l.map (colVal .region)).map CompV.v := by
        unfold compVals
        rw [List.map_map]; rfl
      rw [heq] at hnd
      exact hnd.of_map
    cases hatt : exSortOn (colVal .region) true l with
    | ok r0 =>
      rw [hatt] at hok
      dsimp only at hok
      injection hok with hok
      rw [exSortOn_rev _ _ hnd2 r0 hatt]
      dsimp only
      rw [hok]
    | error e =>
      rw [hatt] at hok
      dsimp only at hok
      cases hok
  | location =>
    unfold mainSortStep at hok ⊢
    dsimp only at hok ⊢
    have hnd2 : (l.map (colVal .location)).Nodup := by
      have heq : compVals dparse .location l = (l.map (colVal .location)).map CompV.v := by
        unfold compVals
        rw [List.map_map]; rfl
      rw [heq] at hnd
      exact hnd.of_map
    cases hatt : exSortOn (colVal .location) true l with
    | ok r0 =>
      rw [hatt] at hok
      dsimp only at hok
      injection hok with hok
      rw [exSortOn_rev _ _ hnd2 r0 hatt]
      dsimp only
      rw [hok]
    | error e =>
      rw [hatt] at hok
      dsimp only at hok
      cases hok

/-- Counterexample to C8 as stated: on the Time column the records with
Time `"5"` and Time `"nan"` have distinct comparator values (5.0 and
`nan`), yet the descending sort is not the reverse of the ascending sort:
the missing `nan` key is pinned to the last position in both directions
by `na_position='last'`. -/
theorem toggle_reverse_counterexample :
    (compVals dparseNone .time [recTime5, recTimeNan]).Nodup ∧
    (mainSortStep dparseNone [recTime5, recTimeNan] .time true).2 =
      .ok [recTime5, recTimeNan] ∧
    (mainSortStep dparseNone [recTime5, recTimeNan] .time false).2 =
      .ok [recTime5, recTimeNan] ∧
    ([recTime5, recTimeNan] : List Record) ≠ [recTimeNan, recTime5] :=
  ⟨by decide, by decide, by decide, by decide⟩

/-- Witness for `toggle_reverse_no_ties`: two records with distinct,
non-missing Event keys (400 and 800) sort descending into exactly the
reverse of the ascending output. -/
theorem toggle_reverse_no_ties_witness :
    (mainSortStep dparseNone [recTimeNan, recTime5] .event false).2 =
      .ok ([recTime5, recTimeNan] : List Record).reverse :=
  toggle_reverse_no_ties dparseNone [recTimeNan, recTime5] .event (by decide)
    (by decide) [recTime5, recTimeNan] (by decide)

/-- C9 (amended): the try/except sorting step never raises out of the
`try` for the mapped columns (Event, Time, Date), whose projections sort
without error and produce no warning.  For the other columns the raw
column is sorted; if that sort succeeds the result is returned with no
warning, and if it raises, the original error is surfaced as a warning
(`st.error`) and the retry - which sorts the very same raw column again,
outside any handler - fails with the same error, so the sort operation
does fail.  (The original claim's "does not fail" is refuted by the
counterexample.) -/
theorem sort_fallback_behavior (dparse : String → Option ℤ) (l : List Record) (c : Col)
    (asc : Bool) :
    (isMapped c = true → ∃ r, mainSortStep dparse l c asc = (none, .ok r)) ∧
    (isMapped c = false → ∀ r, exSortOn (colVal c) asc l = .ok r →
      mainSortStep dparse l c asc = (none, .ok r)) ∧
    (isMapped c = false → ∀ e, exSortOn (colVal c) asc l = .error e →
      mainSortStep dparse l c asc = (some e, .error e)) := by
  refine ⟨fun hm => ?_, fun hm r hr => ?_, fun hm e he => ?_⟩
  · cases c with
    | event => exact ⟨_, rfl⟩
    | time => exact ⟨_, rfl⟩
    | date => exact ⟨_, rfl⟩
    | category => cases hm
    | club => cases hm
    | region => cases hm
    | location => cases hm
  · cases c with
    | event => cases hm
    | time => cases hm
    | date => cases hm
    | category => unfold mainSortStep; rw [hr]
    | club => unfold mainSortStep; rw [hr]
    | region => unfold mainSortStep; rw [hr]
    | location => unfold mainSortStep; rw [hr]
  · cases c with
    | event => cases hm
    | time => cases hm
    | date => cases hm
    | category => unfold mainSortStep; rw [he]
    | club => unfold mainSortStep; rw [he]
    | region => unfold mainSortStep; rw [he]
    | location => unfold mainSortStep; rw [he]

/-- Counterexample to C9 as stated: a Category column mixing a number and
a string makes the comparator-based sort raise `TypeError`; the error is
surfaced (warning `some typeError`) but the retry sorts the same raw
column and raises again, so the sort operation fails
(`.error typeError`), contradicting "the sort operation does not fail". -/
theorem sort_fallback_counterexample :
    mainSortStep dparseNone [recCatNum, recCatStr] .category true =
      (some .typeError, .error .typeError) := by decide

/-- Witness for `sort_fallback_behavior`: a mapped-column sort succeeds
with no warning, and a mixed-type raw column surfaces the error and fails. -/
theorem sort_fallback_behavior_witness :
    (∃ r, mainSortStep dparseNone [recTime5] .event true = (none, .ok r)) ∧
    mainSortStep dparseNone [recCatNum, recCatStr] .category true =
      (some PyErr.typeError, .error PyErr.typeError) :=
  ⟨(sort_fallback_behavior dparseNone [recTime5] .event true).1 (by decide),
    (sort_fallback_behavior dparseNone [recCatNum, recCatStr] .category true).2.2
      (by decide) PyErr.typeError (by decide)⟩
